import Mathlib

/-!
Verification of the Rune runtime interface (`runtime/runtime.h`).

The repository snapshot contains the runtime's header only, so the inline
helpers (`runtime_multCheckForOverflow`, `runtime_bytesToWords`,
`runtime_copyWords`, `runtime_makeEmptyArray`, `runtime_getArrayHeader`,
`runtime_zeroMemory`) are embedded directly from their C source, while the
operations that live in `runtime.c` (array allocation/slicing, bigint
arithmetic, encodings, modular inverse) are modelled from the
specification's description of their behaviour.  The embedding targets the
64-bit build: `size_t` is 8 bytes and native arithmetic is modulo `2^64`.
-/

/-- Number of bytes in a native word (`sizeof(size_t)`) on the 64-bit build. -/
def wordBytes : Nat := 8

/-- Number of bits in a native word (`sizeof(size_t) * 8`). -/
def wordBits : Nat := 64

/-- `RN_SIZET_SHIFT` from runtime.h for an 8-byte `size_t`: shifting right by
3 divides a byte count by `sizeof(size_t)`. -/
def RN_SIZET_SHIFT : Nat := 3

/-- The failure conditions the runtime reports, as named by the spec's error
taxonomy.  `Overflow`, `RangeError` and `DivideByZero` are raised as
catchable exceptions (`runtime_throwExceptionCstr`). -/
inductive RuntimeError where
  | Overflow
  | RangeError
  | DivideByZero
  deriving DecidableEq

/-- `runtime_multCheckForOverflow` from runtime.h: computes `a * b` in native
(wrapping) `size_t` arithmetic, returning it directly on the fast path
(`a == 0`, or both `a >> 32` and `b >> 32` are zero), and otherwise raising
the Overflow exception exactly when the division check `res / a != b`
fails.  `a` and `b` are native values, i.e. below `2 ^ wordBits`. -/
def runtime_multCheckForOverflow (a b : Nat) : Except RuntimeError Nat :=
  let res := a * b % 2 ^ wordBits
  if a = 0 ∨ (a >>> (wordBytes <<< 2) = 0 ∧ b >>> (wordBytes <<< 2) = 0) then
    Except.ok res
  else if res / a ≠ b then
    Except.error RuntimeError.Overflow
  else
    Except.ok res

/-- `runtime_bytesToWords` from runtime.h:
`(numBytes + sizeof(size_t) - 1) >> RN_SIZET_SHIFT`, where the addition is
native `size_t` arithmetic and therefore wraps modulo `2 ^ wordBits`. -/
def runtime_bytesToWords (numBytes : Nat) : Nat :=
  ((numBytes + (wordBytes - 1)) % 2 ^ wordBits) >>> RN_SIZET_SHIFT

/-- The fast path of `runtime_multCheckForOverflow` is only taken when the
mathematical product fits in a native word. -/
theorem multCheckForOverflow_fastSafe (a b : Nat)
    (h : a = 0 ∨ (a >>> (wordBytes <<< 2) = 0 ∧ b >>> (wordBytes <<< 2) = 0)) :
    a * b < 2 ^ wordBits := by
  rcases h with rfl | ⟨h1, h2⟩
  · simp
  · rw [show wordBytes <<< 2 = 32 from by decide, Nat.shiftRight_eq_div_pow] at h1 h2
    have ha32 : a < 2 ^ 32 := (Nat.div_eq_zero_iff (by positivity)).mp h1
    have hb32 : b < 2 ^ 32 := (Nat.div_eq_zero_iff (by positivity)).mp h2
    calc a * b < 2 ^ 32 * 2 ^ 32 := Nat.mul_lt_mul'' ha32 hb32
      _ = 2 ^ wordBits := by norm_num [wordBits]

/-- `runtime_multCheckForOverflow` returns the exact product when it fits. -/
theorem multCheckForOverflow_ok (a b : Nat) (hlt : a * b < 2 ^ wordBits) :
    runtime_multCheckForOverflow a b = Except.ok (a * b) := by
  have hres : a * b % 2 ^ wordBits = a * b := Nat.mod_eq_of_lt hlt
  by_cases hc : a = 0 ∨ (a >>> (wordBytes <<< 2) = 0 ∧ b >>> (wordBytes <<< 2) = 0)
  · simp only [runtime_multCheckForOverflow, if_pos hc, hres]
  · have ha0 : a ≠ 0 := fun h => hc (Or.inl h)
    have hdiv2 : a * b / a = b := Nat.mul_div_cancel_left b (Nat.pos_of_ne_zero ha0)
    simp only [runtime_multCheckForOverflow, if_neg hc, hres, hdiv2, ne_eq,
      not_true_eq_false, if_false]

/-- `runtime_multCheckForOverflow` raises Overflow when the product does not
fit in a native word. -/
theorem multCheckForOverflow_overflow (a b : Nat) (hge : 2 ^ wordBits ≤ a * b) :
    runtime_multCheckForOverflow a b = Except.error RuntimeError.Overflow := by
  have hc : ¬ (a = 0 ∨ (a >>> (wordBytes <<< 2) = 0 ∧ b >>> (wordBytes <<< 2) = 0)) :=
    fun h => absurd (multCheckForOverflow_fastSafe a b h) (not_lt.mpr hge)
  have ha0 : 0 < a := by
    rcases Nat.eq_zero_or_pos a with h | h
    · exact absurd (Or.inl h) hc
    · exact h
  have hdiv : a * b % 2 ^ wordBits / a ≠ b := by
    intro heq
    have h1 : b * a ≤ a * b % 2 ^ wordBits := (Nat.le_div_iff_mul_le ha0).mp (le_of_eq heq.symm)
    have h2 : a * b % 2 ^ wordBits < 2 ^ wordBits := Nat.mod_lt _ (by positivity)
    have h3 : a * b = b * a := Nat.mul_comm a b
    omega
  simp only [runtime_multCheckForOverflow, if_neg hc, hdiv, ne_eq, not_false_eq_true, if_true]

/-- Below the wrap threshold, `runtime_bytesToWords` is the rounding-up
division of the spec, and `(n + wordBytes - 1) / wordBytes` really is the
ceiling of `n / wordBytes`. -/
theorem bytesToWords_eq_ceil (numBytes : Nat)
    (h : numBytes ≤ 2 ^ wordBits - wordBytes) :
    runtime_bytesToWords numBytes = (numBytes + wordBytes - 1) / wordBytes ∧
    numBytes ≤ wordBytes * ((numBytes + wordBytes - 1) / wordBytes) ∧
    wordBytes * ((numBytes + wordBytes - 1) / wordBytes) < numBytes + wordBytes := by
  have e1 : (2 : Nat) ^ wordBits = 18446744073709551616 := by norm_num [wordBits]
  have e2 : (2 : Nat) ^ RN_SIZET_SHIFT = 8 := by norm_num [RN_SIZET_SHIFT]
  rw [e1] at h
  unfold runtime_bytesToWords
  rw [Nat.shiftRight_eq_div_pow, e1, e2]
  simp only [wordBytes] at h ⊢
  rw [Nat.mod_eq_of_lt (by omega)]
  refine ⟨by omega, by omega, by omega⟩

/-- Above the wrap threshold, the internal sum of `runtime_bytesToWords`
wraps and the result undercounts the true ceiling. -/
theorem bytesToWords_wraps (numBytes : Nat) (h : numBytes < 2 ^ wordBits)
    (hbig : 2 ^ wordBits - wordBytes < numBytes) :
    runtime_bytesToWords numBytes < (numBytes + wordBytes - 1) / wordBytes := by
  have e1 : (2 : Nat) ^ wordBits = 18446744073709551616 := by norm_num [wordBits]
  have e2 : (2 : Nat) ^ RN_SIZET_SHIFT = 8 := by norm_num [RN_SIZET_SHIFT]
  rw [e1] at h hbig
  unfold runtime_bytesToWords
  rw [Nat.shiftRight_eq_div_pow, e1, e2]
  simp only [wordBytes] at hbig ⊢
  have hmod : (numBytes + (8 - 1)) % 18446744073709551616 =
      numBytes + (8 - 1) - 18446744073709551616 := by omega
  rw [hmod]
  omega

/-- C1: `runtime_multCheckForOverflow(a, b)` returns the product `a * b`
whenever the mathematical product fits in a native word, raises the
catchable Overflow exception exactly when the product exceeds the
representable range (never returning a wrapped or saturated result), and
its fast path (`a == 0`, or both upper half-words zero) is only taken when
overflow is impossible. -/
theorem multCheckForOverflow_spec (a b : Nat)
    (ha : a < 2 ^ wordBits) (hb : b < 2 ^ wordBits) :
    (a * b < 2 ^ wordBits →
      runtime_multCheckForOverflow a b = Except.ok (a * b)) ∧
    (2 ^ wordBits ≤ a * b →
      runtime_multCheckForOverflow a b = Except.error RuntimeError.Overflow) ∧
    ((a = 0 ∨ (a >>> (wordBytes <<< 2) = 0 ∧ b >>> (wordBytes <<< 2) = 0)) →
      a * b < 2 ^ wordBits) :=
  ⟨multCheckForOverflow_ok a b, multCheckForOverflow_overflow a b,
   multCheckForOverflow_fastSafe a b⟩

/-- Witness for C1: `6 * 7` is returned exactly, and `2^32 * 2^32` raises
the Overflow exception. -/
theorem multCheckForOverflow_witness :
    runtime_multCheckForOverflow 6 7 = Except.ok (6 * 7) ∧
    runtime_multCheckForOverflow (2 ^ 32) (2 ^ 32) = Except.error RuntimeError.Overflow :=
  ⟨(multCheckForOverflow_spec 6 7 (by norm_num [wordBits]) (by norm_num [wordBits])).1
      (by norm_num [wordBits]),
   (multCheckForOverflow_spec (2 ^ 32) (2 ^ 32) (by norm_num [wordBits])
      (by norm_num [wordBits])).2.1 (by norm_num [wordBits])⟩

/-- C10: `runtime_bytesToWords` computes its result with wrapping native
addition: for `numBytes ≤ SIZE_MAX - (sizeof(size_t) - 1)` it returns
exactly the ceiling of `numBytes / sizeof(size_t)` (the last two conjuncts
establish that `(numBytes + wordBytes - 1) / wordBytes` is that ceiling),
while for larger `numBytes` the internal sum wraps modulo `2 ^ wordBits`
and the returned count is strictly smaller than the true ceiling, without
any error being raised. -/
theorem bytesToWords_spec (numBytes : Nat) (h : numBytes < 2 ^ wordBits) :
    (numBytes ≤ 2 ^ wordBits - wordBytes →
      runtime_bytesToWords numBytes = (numBytes + wordBytes - 1) / wordBytes ∧
      numBytes ≤ wordBytes * ((numBytes + wordBytes - 1) / wordBytes) ∧
      wordBytes * ((numBytes + wordBytes - 1) / wordBytes) < numBytes + wordBytes) ∧
    (2 ^ wordBits - wordBytes < numBytes →
      runtime_bytesToWords numBytes < (numBytes + wordBytes - 1) / wordBytes) :=
  ⟨bytesToWords_eq_ceil numBytes, bytesToWords_wraps numBytes h⟩

/-- Witness for C10: 16 bytes make exactly 2 words, while `SIZE_MAX` bytes
wrap and yield a word count strictly below the true ceiling. -/
theorem bytesToWords_witness :
    runtime_bytesToWords 16 = (16 + wordBytes - 1) / wordBytes ∧
    runtime_bytesToWords (2 ^ 64 - 1) < (2 ^ 64 - 1 + wordBytes - 1) / wordBytes :=
  ⟨((bytesToWords_spec 16 (by norm_num [wordBits])).1 (by norm_num [wordBits, wordBytes])).1,
   (bytesToWords_spec (2 ^ 64 - 1) (by norm_num [wordBits])).2
      (by norm_num [wordBits, wordBytes])⟩

/-- Number of words in a `runtime_heapHeader` (non-debug build): one word of
bit-packed flags plus the back pointer. -/
def headerWords : Nat := 2

/-- `runtime_heapHeader` from runtime.h: the header on the heap preceding an
array's data, recording the sub-array flag, the allocated storage in words,
and the back pointer to the owning handle (modelled as the handle's
address). -/
structure runtime_heapHeader where
  hasSubArrays : Bool
  allocatedWords : Nat
  backPointer : Nat
  deriving DecidableEq

/-- `runtime_array` from runtime.h: the unique reference to an array's heap
data.  `data` is the word address of the data (`none` models a NULL
pointer) and `numElements` the element count. -/
structure runtime_array where
  data : Option Nat
  numElements : Nat
  deriving DecidableEq

/-- The heap, as the list of live blocks: header address paired with the
header contents. -/
structure Heap where
  blocks : List (Nat × runtime_heapHeader)
  deriving DecidableEq

/-- `runtime_makeEmptyArray` from runtime.h: `{NULL, 0}`. -/
def runtime_makeEmptyArray : runtime_array := ⟨none, 0⟩

/-- `runtime_getArrayHeader` from runtime.h:
`((runtime_heapHeader*)(array->data)) - 1`, i.e. the address `headerWords`
words below the data pointer. -/
def runtime_getArrayHeader (array : runtime_array) : Nat :=
  array.data.getD headerWords - headerWords

/-- Modelled from the spec: `runtime_allocArray` is implemented in
`runtime.c`, which is not part of this repository snapshot (only its
declaration is in runtime.h).  Per the spec it reserves
`ceil(count*elementSize / wordSize)` words — computed with the
overflow-checked multiply and `runtime_bytesToWords` of runtime.h —
installs a header with the back pointer to the owning handle, and returns a
handle whose data sits immediately after the header; a zero-byte request
leaves the empty handle.  `addr` models the block address chosen by the
host allocator and `owner` the owning handle's address. -/
def runtime_allocArray (h : Heap) (addr owner numElements elementSize : Nat)
    (hasSubArrays : Bool) : Except RuntimeError (Heap × runtime_array) :=
  match runtime_multCheckForOverflow numElements elementSize with
  | Except.error e => Except.error e
  | Except.ok numBytes =>
    if numBytes = 0 then Except.ok (h, runtime_makeEmptyArray)
    else
      Except.ok (⟨(addr, ⟨hasSubArrays, runtime_bytesToWords numBytes, owner⟩) :: h.blocks⟩,
        ⟨some (addr + headerWords), numElements⟩)

/-- Modelled from the spec: `runtime_moveArray` transfers ownership — the
destination handle receives the source's value and the source becomes the
empty handle. -/
def runtime_moveArray (dest source : runtime_array) : runtime_array × runtime_array :=
  (source, runtime_makeEmptyArray)

/-- Modelled from the spec: `runtime_freeArray` returns the handle's block
to the allocator and leaves the empty handle. -/
def runtime_freeArray (h : Heap) (array : runtime_array) : Heap × runtime_array :=
  (⟨h.blocks.filter fun b => some (b.1 + headerWords) != array.data⟩,
   runtime_makeEmptyArray)

/-- The spec's array-handle invariant: the element count is zero iff the
data pointer is NULL, and a non-null data pointer points immediately after
a live heap header (`runtime_getArrayHeader` plus the header size lands
back on the data). -/
def arrayInv (h : Heap) (array : runtime_array) : Prop :=
  (array.numElements = 0 ↔ array.data = none) ∧
  ∀ p, array.data = some p →
    headerWords ≤ p ∧
    runtime_getArrayHeader array + headerWords = p ∧
    ∃ hdr, (runtime_getArrayHeader array, hdr) ∈ h.blocks

/-- Whatever branch `runtime_multCheckForOverflow` takes, a successful
result is the wrapped native product. -/
theorem multCheckForOverflow_ok_val (a b nb : Nat)
    (h : runtime_multCheckForOverflow a b = Except.ok nb) :
    nb = a * b % 2 ^ wordBits := by
  unfold runtime_multCheckForOverflow at h
  simp only [] at h
  by_cases hc : a = 0 ∨ (a >>> (wordBytes <<< 2) = 0 ∧ b >>> (wordBytes <<< 2) = 0)
  · rw [if_pos hc] at h
    simp only [Except.ok.injEq] at h
    omega
  · rw [if_neg hc] at h
    by_cases hd : a * b % 2 ^ wordBits / a ≠ b
    · rw [if_pos hd] at h
      exact absurd h (by simp)
    · rw [if_neg hd] at h
      simp only [Except.ok.injEq] at h
      omega

/-- The empty handle satisfies the array invariant in any heap. -/
theorem arrayInv_empty (h : Heap) : arrayInv h runtime_makeEmptyArray := by
  constructor
  · simp [runtime_makeEmptyArray]
  · intro p hp
    simp [runtime_makeEmptyArray] at hp

/-- Any handle produced by a successful allocation satisfies the array
invariant in the post-allocation heap. -/
theorem arrayInv_alloc (h : Heap) (addr owner numElements elementSize : Nat)
    (hasSubArrays : Bool) (h2 : Heap) (arr : runtime_array)
    (hok : runtime_allocArray h addr owner numElements elementSize hasSubArrays =
      Except.ok (h2, arr)) : arrayInv h2 arr := by
  unfold runtime_allocArray at hok
  cases hmc : runtime_multCheckForOverflow numElements elementSize with
  | error e => rw [hmc] at hok; exact absurd hok (by simp)
  | ok nb =>
    rw [hmc] at hok
    simp only [] at hok
    by_cases hz : nb = 0
    · rw [if_pos hz] at hok
      simp only [Except.ok.injEq, Prod.mk.injEq] at hok
      obtain ⟨rfl, rfl⟩ := hok
      exact arrayInv_empty h
    · rw [if_neg hz] at hok
      simp only [Except.ok.injEq, Prod.mk.injEq] at hok
      obtain ⟨rfl, rfl⟩ := hok
      constructor
      · constructor
        · intro hn0
          exfalso
          have hv := multCheckForOverflow_ok_val numElements elementSize nb hmc
          have hn0x : numElements = 0 := hn0
          rw [hn0x] at hv
          simp at hv
          exact hz hv
        · intro hd
          simp at hd
      · intro p hp
        simp only [Option.some.injEq] at hp
        subst hp
        refine ⟨by norm_num [headerWords], ?_, ?_⟩
        · simp [runtime_getArrayHeader, headerWords]
        · refine ⟨⟨hasSubArrays, runtime_bytesToWords nb, owner⟩, ?_⟩
          simp [runtime_getArrayHeader, headerWords]

/-- C2 (amended): for valid `count`, `elementSize` whose byte product is at
most `SIZE_MAX - (sizeof(size_t) - 1)`, `runtime_allocArray` yields a
handle with `count` elements whose header records
`ceil(count*elementSize / wordBytes)` allocated words, which is at least
`count*elementSize` bytes; `runtime_bytesToWords` agrees with that ceiling
on this range.  (The original bound `count*elementSize ≤ SIZE_MAX` fails:
see the counterexample theorem.) -/
theorem allocArray_spec (h : Heap) (addr owner numElements elementSize : Nat)
    (hasSubArrays : Bool) (hn : 0 < numElements) (he : 0 < elementSize)
    (hsz : numElements * elementSize ≤ 2 ^ wordBits - wordBytes) :
    runtime_allocArray h addr owner numElements elementSize hasSubArrays =
      Except.ok (⟨(addr, ⟨hasSubArrays,
          (numElements * elementSize + wordBytes - 1) / wordBytes, owner⟩) :: h.blocks⟩,
        ⟨some (addr + headerWords), numElements⟩) ∧
    numElements * elementSize ≤
      wordBytes * ((numElements * elementSize + wordBytes - 1) / wordBytes) ∧
    runtime_bytesToWords (numElements * elementSize) =
      (numElements * elementSize + wordBytes - 1) / wordBytes := by
  have hlt : numElements * elementSize < 2 ^ wordBits := by
    have e1 : (2 : Nat) ^ wordBits = 18446744073709551616 := by norm_num [wordBits]
    have e2 : wordBytes = 8 := rfl
    rw [e1, e2] at hsz
    rw [e1]
    omega
  have hmc := multCheckForOverflow_ok numElements elementSize hlt
  have hne : numElements * elementSize ≠ 0 := Nat.mul_ne_zero (by omega) (by omega)
  obtain ⟨hc1, hc2, hc3⟩ := bytesToWords_eq_ceil (numElements * elementSize) hsz
  unfold runtime_allocArray
  rw [hmc]
  refine ⟨?_, hc2, hc1⟩
  simp only [if_neg hne, hc1]

/-- Witness for C2: 4 elements of 4 bytes allocate exactly 2 words
(16 bytes) on the 64-bit build. -/
theorem allocArray_witness :
    runtime_allocArray ⟨[]⟩ 0 0 4 4 false =
      Except.ok (⟨[(0, ⟨false, (4 * 4 + wordBytes - 1) / wordBytes, 0⟩)]⟩,
        ⟨some (0 + headerWords), 4⟩) ∧
    4 * 4 ≤ wordBytes * ((4 * 4 + wordBytes - 1) / wordBytes) ∧
    (4 * 4 + wordBytes - 1) / wordBytes = 2 := by
  obtain ⟨h1, h2, h3⟩ := allocArray_spec ⟨[]⟩ 0 0 4 4 false (by norm_num) (by norm_num)
    (by norm_num [wordBits, wordBytes])
  exact ⟨h1, h2, by norm_num [wordBytes]⟩

/-- Counterexample for C2 as stated: `count = SIZE_MAX`, `elementSize = 1`
has a product within the native size limit, yet the allocation's header
records 0 allocated words — fewer than `count*elementSize` bytes — because
the byte-to-word conversion wraps. -/
theorem allocArray_ceiling_counterexample :
    (2 ^ 64 - 1) * 1 ≤ 2 ^ wordBits - 1 ∧
    runtime_allocArray ⟨[]⟩ 0 0 (2 ^ 64 - 1) 1 false =
      Except.ok (⟨[(0, ⟨false, 0, 0⟩)]⟩, ⟨some headerWords, 2 ^ 64 - 1⟩) ∧
    wordBytes * 0 < (2 ^ 64 - 1) * 1 := by
  refine ⟨by norm_num [wordBits], ?_, by norm_num [wordBytes]⟩
  rfl

/-- C8: handles produced or left behind by the public array operations
satisfy the invariant "count is 0 iff data is NULL":
`runtime_makeEmptyArray` returns `{NULL, 0}`; allocation, move and free
preserve the invariant; and every non-empty handle's data points
immediately after a live heap header, so
`runtime_getArrayHeader + headerWords` is the data address. -/
theorem array_invariant_spec (h : Heap) (addr owner numElements elementSize : Nat)
    (hasSubArrays : Bool) (dest source a : runtime_array)
    (hsrc : arrayInv h source) :
    (runtime_makeEmptyArray.data = none ∧ runtime_makeEmptyArray.numElements = 0) ∧
    arrayInv h runtime_makeEmptyArray ∧
    (∀ h2 arr, runtime_allocArray h addr owner numElements elementSize hasSubArrays =
        Except.ok (h2, arr) → arrayInv h2 arr) ∧
    arrayInv h (runtime_moveArray dest source).1 ∧
    arrayInv h (runtime_moveArray dest source).2 ∧
    arrayInv (runtime_freeArray h a).1 (runtime_freeArray h a).2 :=
  ⟨⟨rfl, rfl⟩, arrayInv_empty h,
   fun h2 arr hok => arrayInv_alloc h addr owner numElements elementSize hasSubArrays h2 arr hok,
   hsrc, arrayInv_empty h, arrayInv_empty _⟩

/-- Witness for C8: a concrete one-block heap with a live 3-element handle;
the empty handle is `{NULL, 0}` and a move leaves an invariant-satisfying
pair. -/
theorem array_invariant_witness :
    (runtime_makeEmptyArray.data = none ∧ runtime_makeEmptyArray.numElements = 0) ∧
    arrayInv ⟨[(0, ⟨false, 2, 0⟩)]⟩
      (runtime_moveArray runtime_makeEmptyArray ⟨some 2, 3⟩).1 := by
  have hsrc : arrayInv ⟨[(0, ⟨false, 2, 0⟩)]⟩ ⟨some 2, 3⟩ := by
    constructor
    · simp
    · intro p hp
      simp only [Option.some.injEq] at hp
      subst hp
      refine ⟨by norm_num [headerWords], by simp [runtime_getArrayHeader, headerWords],
        ⟨false, 2, 0⟩, by simp [runtime_getArrayHeader, headerWords]⟩
  have hmain := array_invariant_spec ⟨[(0, ⟨false, 2, 0⟩)]⟩ 8 0 1 8 false
    runtime_makeEmptyArray ⟨some 2, 3⟩ runtime_makeEmptyArray hsrc
  exact ⟨hmain.1, hmain.2.2.2.1⟩

/-- Modelled from the spec: `runtime_sliceArray` is implemented in
`runtime.c`, which is not part of this repository snapshot.  Per the spec
it produces an independent copy of the half-open element range
`[lower, upper)` and fails with `RangeError` if `lower > upper` or
`upper > source.count`.  The source array is modelled by its element
contents. -/
def runtime_sliceArray (source : List Nat) (lower upper : Nat) :
    Except RuntimeError (List Nat) :=
  if lower > upper ∨ upper > source.length then Except.error RuntimeError.RangeError
  else Except.ok ((source.drop lower).take (upper - lower))

/-- C7: `runtime_sliceArray` yields a copy of the half-open range
`[lower, upper)` — with `upper - lower` elements, the `i`-th being element
`lower + i` of the source — and raises `RangeError` exactly when
`lower > upper` or `upper > source.numElements`. -/
theorem sliceArray_spec (source : List Nat) (lower upper : Nat) :
    (lower ≤ upper → upper ≤ source.length →
      runtime_sliceArray source lower upper =
        Except.ok ((source.drop lower).take (upper - lower)) ∧
      ((source.drop lower).take (upper - lower)).length = upper - lower ∧
      ∀ i, i < upper - lower →
        ((source.drop lower).take (upper - lower))[i]? = source[lower + i]?) ∧
    (lower > upper ∨ upper > source.length →
      runtime_sliceArray source lower upper = Except.error RuntimeError.RangeError) := by
  constructor
  · intro h1 h2
    refine ⟨?_, ?_, ?_⟩
    · unfold runtime_sliceArray
      rw [if_neg (by omega)]
    · rw [List.length_take, List.length_drop]
      omega
    · intro i hi
      rw [List.getElem?_take, if_pos hi, List.getElem?_drop]
  · intro hbad
    unfold runtime_sliceArray
    rw [if_pos hbad]

/-- Witness for C7: slicing a 5-element array with `lower = upper = 2`
succeeds with the empty result, while `lower = 2, upper = 6` raises
`RangeError`. -/
theorem sliceArray_witness :
    runtime_sliceArray [1, 2, 3, 4, 5] 2 2 = Except.ok [] ∧
    runtime_sliceArray [1, 2, 3, 4, 5] 2 6 = Except.error RuntimeError.RangeError :=
  ⟨((sliceArray_spec [1, 2, 3, 4, 5] 2 2).1 (by norm_num) (by norm_num)).1,
   (sliceArray_spec [1, 2, 3, 4, 5] 2 6).2 (by norm_num)⟩

/-- `runtime_copyWords` from runtime.h: `while (numWords--) *dest++ = *src++;`
— a forward word-by-word copy.  Memory is modelled as a list of words
indexed by word address; `mem.getD src 0` is the word read at `src`. -/
def runtime_copyWords (mem : List Nat) (dest src : Nat) : Nat → List Nat
  | 0 => mem
  | numWords + 1 =>
    runtime_copyWords (mem.set dest (mem.getD src 0)) (dest + 1) (src + 1) numWords

/-- C9 fails on the code: with `src = 0 < dest = 1` and overlapping regions
— the very overlap the code's comment permits — the forward loop
propagates the first source word instead of preserving the pre-call source
contents, so `dest[0..2)` ends as `[10, 10]`, not `[10, 20]`.  The third
and fourth conjuncts show the opposite overlap direction (`dest < src`,
which the comment does not promise) is the one the loop actually
handles correctly. -/
theorem copyWords_overlap_bug :
    runtime_copyWords [10, 20, 30] 1 0 2 = [10, 10, 10] ∧
    ((runtime_copyWords [10, 20, 30] 1 0 2).drop 1).take 2 ≠ ([10, 20, 30].drop 0).take 2 ∧
    runtime_copyWords [30, 10, 20, 0] 1 2 2 = [30, 20, 0, 0] ∧
    ([30, 10, 20, 0].drop 2).take 2 =
      ((runtime_copyWords [30, 10, 20, 0] 1 2 2).drop 1).take 2 := by
  refine ⟨by decide, by decide, by decide, by decide⟩

/-- A bigint value: the CTTK-backed representation packs a bit width, a
signed flag and a secret flag alongside the magnitude words; `bits` is the
width-bit two's-complement pattern of the value. -/
structure runtime_bigint where
  width : Nat
  isSigned : Bool
  isSecret : Bool
  bits : Nat
  deriving DecidableEq

/-- Modelled from the spec: `runtime_bigintAddTrunc` is implemented in
`runtime.c`, which is not part of this repository snapshot.  Per the spec
the `*Trunc` variants wrap modulo `2^width`; the result keeps the
operands' width and signedness (operands of one addition share a type) and
is secret if either operand is secret. -/
def runtime_bigintAddTrunc (a b : runtime_bigint) : runtime_bigint :=
  ⟨a.width, a.isSigned, a.isSecret || b.isSecret, (a.bits + b.bits) % 2 ^ a.width⟩

/-- C5: truncating addition of same-typed bigints is commutative, and adding
1 to the width-bit maximum value wraps to 0. -/
theorem bigintAddTrunc_spec (a b : runtime_bigint)
    (hw : a.width = b.width) (hs : a.isSigned = b.isSigned) :
    runtime_bigintAddTrunc a b = runtime_bigintAddTrunc b a ∧
    (∀ w s sec, runtime_bigintAddTrunc ⟨w, s, sec, 2 ^ w - 1⟩ ⟨w, s, sec, 1⟩ =
      ⟨w, s, sec, 0⟩) := by
  constructor
  · cases a with | mk aw asg asc ab =>
    cases b with | mk bw bsg bsc bb =>
    simp only at hw hs
    subst hw
    subst hs
    simp [runtime_bigintAddTrunc, Nat.add_comm, Bool.or_comm]
  · intro w s sec
    have hsum : 2 ^ w - 1 + 1 = 2 ^ w := Nat.succ_pred_eq_of_pos (Nat.two_pow_pos w)
    simp [runtime_bigintAddTrunc, hsum]

/-- Witness for C5: 250 + 10 at width 8 wraps to 4, commutes, and
255 + 1 wraps to 0. -/
theorem bigintAddTrunc_witness :
    runtime_bigintAddTrunc ⟨8, false, false, 250⟩ ⟨8, false, false, 10⟩ =
      runtime_bigintAddTrunc ⟨8, false, false, 10⟩ ⟨8, false, false, 250⟩ ∧
    runtime_bigintAddTrunc ⟨8, false, false, 250⟩ ⟨8, false, false, 10⟩ =
      ⟨8, false, false, 4⟩ ∧
    runtime_bigintAddTrunc ⟨8, false, false, 2 ^ 8 - 1⟩ ⟨8, false, false, 1⟩ =
      ⟨8, false, false, 0⟩ :=
  ⟨(bigintAddTrunc_spec ⟨8, false, false, 250⟩ ⟨8, false, false, 10⟩ rfl rfl).1,
   by decide,
   (bigintAddTrunc_spec ⟨8, false, false, 250⟩ ⟨8, false, false, 10⟩ rfl rfl).2 8 false false⟩

/-- Number of bytes in a width-bit bigint's byte encoding. -/
def bigintByteLen (width : Nat) : Nat := (width + 7) / 8

/-- Little-endian byte expansion of a bit pattern, least significant byte
first. -/
def encodeBytesLE : Nat → Nat → List Nat
  | 0, _ => []
  | numBytes + 1, bits => bits % 256 :: encodeBytesLE numBytes (bits / 256)

/-- Recomposition of a little-endian byte list into a bit pattern. -/
def decodeBytesLE : List Nat → Nat
  | [] => 0
  | byte :: rest => byte + 256 * decodeBytesLE rest

/-- Modelled from the spec: `runtime_bigintEncodeLittleEndian` is
implemented in `runtime.c`, which is not part of this repository snapshot.
It emits the value's two's-complement pattern, least significant byte
first, over `ceil(width/8)` bytes. -/
def runtime_bigintEncodeLittleEndian (source : runtime_bigint) : List Nat :=
  encodeBytesLE (bigintByteLen source.width) source.bits

/-- Modelled from the spec: `runtime_bigintEncodeBigEndian` emits the same
bytes most significant first. -/
def runtime_bigintEncodeBigEndian (source : runtime_bigint) : List Nat :=
  (encodeBytesLE (bigintByteLen source.width) source.bits).reverse

/-- Modelled from the spec: `runtime_bigintDecodeLittleEndian` rebuilds a
bigint from little-endian bytes at the caller-supplied width, signedness
and secrecy. -/
def runtime_bigintDecodeLittleEndian (byteArray : List Nat) (width : Nat)
    (isSigned secret : Bool) : runtime_bigint :=
  ⟨width, isSigned, secret, decodeBytesLE byteArray % 2 ^ width⟩

/-- Modelled from the spec: `runtime_bigintDecodeBigEndian` rebuilds a
bigint from big-endian bytes at the caller-supplied width, signedness and
secrecy. -/
def runtime_bigintDecodeBigEndian (byteArray : List Nat) (width : Nat)
    (isSigned secret : Bool) : runtime_bigint :=
  ⟨width, isSigned, secret, decodeBytesLE byteArray.reverse % 2 ^ width⟩

/-- Byte-level round trip: recomposing the little-endian expansion of a
pattern below `256 ^ numBytes` gives the pattern back. -/
theorem decodeBytesLE_encodeBytesLE (numBytes bits : Nat) (h : bits < 256 ^ numBytes) :
    decodeBytesLE (encodeBytesLE numBytes bits) = bits := by
  induction numBytes generalizing bits with
  | zero =>
    simp only [Nat.pow_zero, Nat.lt_one_iff] at h
    simp [encodeBytesLE, decodeBytesLE, h]
  | succ k ih =>
    have hdiv : bits / 256 < 256 ^ k := by
      rw [Nat.div_lt_iff_lt_mul (by norm_num)]
      calc bits < 256 ^ (k + 1) := h
        _ = 256 ^ k * 256 := by ring
    simp only [encodeBytesLE, decodeBytesLE, ih _ hdiv]
    omega

/-- C3: decoding the encoding of any well-formed bigint at the same width,
signedness and secrecy reproduces it bit-for-bit, for both endiannesses. -/
theorem bigint_roundtrip (v : runtime_bigint) (hwf : v.bits < 2 ^ v.width) :
    runtime_bigintDecodeLittleEndian (runtime_bigintEncodeLittleEndian v)
      v.width v.isSigned v.isSecret = v ∧
    runtime_bigintDecodeBigEndian (runtime_bigintEncodeBigEndian v)
      v.width v.isSigned v.isSecret = v := by
  cases v with | mk w sg sc bits =>
  simp only at hwf
  have hexp : w ≤ 8 * bigintByteLen w := by
    simp only [bigintByteLen]
    omega
  have hlt : bits < 256 ^ bigintByteLen w := by
    calc bits < 2 ^ w := hwf
      _ ≤ 2 ^ (8 * bigintByteLen w) := Nat.pow_le_pow_right (by norm_num) hexp
      _ = 256 ^ bigintByteLen w := by rw [Nat.pow_mul]
  have hd := decodeBytesLE_encodeBytesLE (bigintByteLen w) bits hlt
  constructor
  · simp [runtime_bigintDecodeLittleEndian, runtime_bigintEncodeLittleEndian, hd,
      Nat.mod_eq_of_lt hwf]
  · simp [runtime_bigintDecodeBigEndian, runtime_bigintEncodeBigEndian,
      List.reverse_reverse, hd, Nat.mod_eq_of_lt hwf]

/-- Witness for C3: the unsigned 16-bit value 300 encodes little-endian as
`[0x2C, 0x01]`, and both endiannesses decode back to 300. -/
theorem bigint_roundtrip_witness :
    runtime_bigintEncodeLittleEndian ⟨16, false, false, 300⟩ = [0x2C, 0x01] ∧
    runtime_bigintDecodeLittleEndian [0x2C, 0x01] 16 false false = ⟨16, false, false, 300⟩ ∧
    runtime_bigintDecodeBigEndian [0x01, 0x2C] 16 false false = ⟨16, false, false, 300⟩ := by
  have h := bigint_roundtrip ⟨16, false, false, 300⟩ (by norm_num)
  have he : runtime_bigintEncodeLittleEndian ⟨16, false, false, 300⟩ = [0x2C, 0x01] := by decide
  have hbe : runtime_bigintEncodeBigEndian ⟨16, false, false, 300⟩ = [0x01, 0x2C] := by decide
  exact ⟨he, by rw [← he]; exact h.1, by rw [← hbe]; exact h.2⟩

/-- Modelled from the spec: `runtime_bigintDivRem` is implemented in
`runtime.c`, which is not part of this repository snapshot.  Per the spec,
division uses truncate-toward-zero semantics for signed operands and
division by zero fails with `DivideByZero`; bigint operands are modelled by
their mathematical integer values, with `Int.tdiv`/`Int.tmod` the
truncating quotient and remainder. -/
def runtime_bigintDivRem (a b : Int) : Except RuntimeError (Int × Int) :=
  if b = 0 then Except.error RuntimeError.DivideByZero
  else Except.ok (a.tdiv b, a.tmod b)

/-- Modelled from the spec: `runtime_bigintDiv` — the quotient of
`runtime_bigintDivRem`. -/
def runtime_bigintDiv (a b : Int) : Except RuntimeError Int :=
  Except.map Prod.fst (runtime_bigintDivRem a b)

/-- Modelled from the spec: `runtime_bigintMod` — the remainder of
`runtime_bigintDivRem`. -/
def runtime_bigintMod (a b : Int) : Except RuntimeError Int :=
  Except.map Prod.snd (runtime_bigintDivRem a b)

/-- The truncating remainder of a nonpositive dividend is nonpositive. -/
theorem tmod_nonpos_of_nonpos (a b : Int) (h : a ≤ 0) : a.tmod b ≤ 0 := by
  cases a with
  | ofNat n =>
    have hn : n = 0 := by
      have hcast : (n : Int) ≤ 0 := h
      have hle : n ≤ 0 := by exact_mod_cast hcast
      omega
    subst hn
    cases b <;> simp [Int.tmod]
  | negSucc n =>
    cases b with
    | ofNat k =>
      have he : (Int.negSucc n).tmod (Int.ofNat k) = -Int.ofNat (n.succ % k) := rfl
      rw [he]
      have h0 : (0 : Int) ≤ Int.ofNat (n.succ % k) := Int.ofNat_nonneg _
      omega
    | negSucc k =>
      have he : (Int.negSucc n).tmod (Int.negSucc k) = -Int.ofNat (n.succ % k.succ) := rfl
      rw [he]
      have h0 : (0 : Int) ≤ Int.ofNat (n.succ % k.succ) := Int.ofNat_nonneg _
      omega

/-- C4: for `b ≠ 0` the quotient and remainder of `runtime_bigintDiv`,
`runtime_bigintMod` and `runtime_bigintDivRem` satisfy
`a = b * div(a,b) + mod(a,b)` with truncate-toward-zero semantics — the
remainder's sign matches the dividend's — while `b = 0` raises
`DivideByZero` in all three. -/
theorem bigintDivRem_spec (a b : Int) :
    (b ≠ 0 →
      runtime_bigintDivRem a b = Except.ok (a.tdiv b, a.tmod b) ∧
      runtime_bigintDiv a b = Except.ok (a.tdiv b) ∧
      runtime_bigintMod a b = Except.ok (a.tmod b) ∧
      a = b * a.tdiv b + a.tmod b ∧
      (0 ≤ a → 0 ≤ a.tmod b) ∧
      (a ≤ 0 → a.tmod b ≤ 0)) ∧
    (b = 0 →
      runtime_bigintDivRem a b = Except.error RuntimeError.DivideByZero ∧
      runtime_bigintDiv a b = Except.error RuntimeError.DivideByZero ∧
      runtime_bigintMod a b = Except.error RuntimeError.DivideByZero) := by
  constructor
  · intro hb
    have hok : runtime_bigintDivRem a b = Except.ok (a.tdiv b, a.tmod b) := by
      unfold runtime_bigintDivRem
      rw [if_neg hb]
    refine ⟨hok, ?_, ?_, (Int.tdiv_add_tmod a b).symm, fun ha => Int.tmod_nonneg b ha,
      tmod_nonpos_of_nonpos a b⟩
    · unfold runtime_bigintDiv
      rw [hok]
      rfl
    · unfold runtime_bigintMod
      rw [hok]
      rfl
  · intro hb
    have herr : runtime_bigintDivRem a b = Except.error RuntimeError.DivideByZero := by
      unfold runtime_bigintDivRem
      rw [if_pos hb]
    exact ⟨herr, by unfold runtime_bigintDiv; rw [herr]; rfl,
      by unfold runtime_bigintMod; rw [herr]; rfl⟩

/-- Witness for C4: `-7 div 2 = -3` with remainder `-1` (sign of the
dividend), the identity holds, and dividing by zero raises
`DivideByZero`. -/
theorem bigintDivRem_witness :
    runtime_bigintDivRem (-7) 2 = Except.ok ((-7 : Int).tdiv 2, (-7 : Int).tmod 2) ∧
    (-7 : Int).tdiv 2 = -3 ∧
    (-7 : Int).tmod 2 = -1 ∧
    (-7 : Int) = 2 * (-7 : Int).tdiv 2 + (-7 : Int).tmod 2 ∧
    runtime_bigintDivRem (-7) 0 = Except.error RuntimeError.DivideByZero :=
  ⟨((bigintDivRem_spec (-7) 2).1 (by norm_num)).1, by decide, by decide,
   ((bigintDivRem_spec (-7) 2).1 (by norm_num)).2.2.2.1,
   ((bigintDivRem_spec (-7) 0).2 rfl).1⟩

/-- Modelled from the spec: `runtime_bigintModularInverse` is implemented
in `runtime.c`, which is not part of this repository snapshot.  Per the
spec it succeeds with a `d` such that `(x*d) mod m == 1` exactly when
`gcd(x, m) == 1` and otherwise reports failure through its boolean result
(`none` here), never by raising an exception.  The model searches the
residues below `m` for the inverse. -/
def runtime_bigintModularInverse (x m : Nat) : Option Nat :=
  List.find? (fun d => (x * d) % m == 1 % m) (List.range m)

/-- A found modular inverse is a reduced residue and really inverts `x`. -/
theorem modularInverse_found (x m d : Nat)
    (h : runtime_bigintModularInverse x m = some d) :
    d < m ∧ x * d % m = 1 % m := by
  unfold runtime_bigintModularInverse at h
  have hmem := List.mem_of_find?_eq_some h
  have hp := List.find?_some h
  simp only [beq_iff_eq] at hp
  exact ⟨List.mem_range.mp hmem, hp⟩

/-- Only units modulo `m` have inverses: an inverse forces the gcd down
to 1. -/
theorem coprime_of_modularInverse (x m d : Nat) (hm : 0 < m)
    (h : x * d % m = 1 % m) : Nat.gcd x m = 1 := by
  have h1 : x * d % Nat.gcd x m = 1 % Nat.gcd x m :=
    Nat.ModEq.of_dvd (Nat.gcd_dvd_right x m) h
  have hdx : Nat.gcd x m ∣ x * d := (Nat.gcd_dvd_left x m).mul_right d
  have h2 : x * d % Nat.gcd x m = 0 := Nat.mod_eq_zero_of_dvd hdx
  have h3 : 1 % Nat.gcd x m = 0 := by rw [← h1, h2]
  exact Nat.dvd_one.mp (Nat.dvd_of_mod_eq_zero h3)

/-- Every unit modulo `m` has an inverse among the residues below `m`
(via Euler's totient theorem). -/
theorem inverse_of_coprime (x m : Nat) (hm : 0 < m) (hg : Nat.gcd x m = 1) :
    ∃ d, d < m ∧ x * d % m = 1 % m := by
  have hco : Nat.Coprime x m := hg
  have heuler : x ^ Nat.totient m % m = 1 % m := Nat.ModEq.pow_totient hco
  have hphi : 0 < Nat.totient m := Nat.totient_pos.mpr hm
  refine ⟨x ^ (Nat.totient m - 1) % m, Nat.mod_lt _ hm, ?_⟩
  have hx : x * x ^ (Nat.totient m - 1) = x ^ Nat.totient m := by
    rw [← Nat.pow_succ']
    congr 1
    omega
  calc x * (x ^ (Nat.totient m - 1) % m) % m
      = x * x ^ (Nat.totient m - 1) % m := Nat.ModEq.mul_left x (Nat.mod_modEq _ _)
    _ = x ^ Nat.totient m % m := by rw [hx]
    _ = 1 % m := heuler

/-- C6: `runtime_bigintModularInverse(x, m)` succeeds exactly when
`gcd(x, m) = 1`; a returned `d` satisfies `(x*d) mod m = 1 mod m` and is a
reduced residue, and the non-invertible case yields the failure result
(`none`) rather than an exception. -/
theorem bigintModularInverse_spec (x m : Nat) (hm : 0 < m) :
    ((runtime_bigintModularInverse x m).isSome ↔ Nat.gcd x m = 1) ∧
    (∀ d, runtime_bigintModularInverse x m = some d → d < m ∧ x * d % m = 1 % m) ∧
    (Nat.gcd x m ≠ 1 → runtime_bigintModularInverse x m = none) := by
  have hiff : (runtime_bigintModularInverse x m).isSome ↔ Nat.gcd x m = 1 := by
    constructor
    · intro hs
      obtain ⟨d, hd⟩ := Option.isSome_iff_exists.mp hs
      exact coprime_of_modularInverse x m d hm (modularInverse_found x m d hd).2
    · intro hg
      obtain ⟨d, hdm, hinv⟩ := inverse_of_coprime x m hm hg
      unfold runtime_bigintModularInverse
      rw [List.find?_isSome]
      exact ⟨d, List.mem_range.mpr hdm, by simp [hinv]⟩
  refine ⟨hiff, fun d => modularInverse_found x m d, ?_⟩
  intro hg
  by_contra hne
  exact hg (hiff.mp (Option.ne_none_iff_isSome.mp hne))

/-- Witness for C6: 3 is invertible modulo 10 with inverse 7, while 4
(gcd 2 with 10) yields the failure result. -/
theorem bigintModularInverse_witness :
    ((runtime_bigintModularInverse 3 10).isSome ↔ Nat.gcd 3 10 = 1) ∧
    runtime_bigintModularInverse 3 10 = some 7 ∧
    3 * 7 % 10 = 1 % 10 ∧
    runtime_bigintModularInverse 4 10 = none :=
  ⟨(bigintModularInverse_spec 3 10 (by norm_num)).1, by decide, by decide,
   (bigintModularInverse_spec 4 10 (by norm_num)).2.2 (by decide)⟩
